import Mathlib

/-!
# Verification of the `load_confounds` confound-selection engine

Shallow embedding of `src/load_confounds.py`.  A pandas `DataFrame` is
modelled as a list of column names together with a list of rows, each cell
being `Option Rat` (`none` models a missing value / NaN).  Python
`ValueError` exceptions and the `UnboundLocalError` arising in
`_load_compcor` are modelled by the `LoadError` type and `Except`.
Numeric behaviour of `StandardScaler`/`PCA` (floating point) is not
modelled; the composed `scaler.fit_transform ∘ pca.fit_transform` step is a
parameter `numeric` of the motion loader, constrained only by its
documented shape contract where a theorem needs it.
-/

/-- `pat` occurs in `l` as a contiguous sublist. -/
def charListHasSub (pat : List Char) : List Char → Bool
  | [] => pat.isEmpty
  | c :: cs => pat.isPrefixOf (c :: cs) || charListHasSub pat cs

/-- Python `key in col` on strings: `key` occurs in `col` as a substring. -/
def strContains (col key : String) : Bool :=
  charListHasSub key.toList col.toList

/-- Python `str.zfill(2)` for non-negative inputs: left-pad with zeros to
width two. -/
def zfill2 (s : String) : String :=
  if s.length ≥ 2 then s else String.mk (List.replicate (2 - s.length) '0') ++ s

/-- The errors the Python code can raise.  `invalidStrategy`,
`missingColumn` and `noMatchingColumn` are the three `ValueError` sites
(`_sanitize_strategy`, `_check_params`, `_find_confounds`); `unboundLocal`
models the Python `UnboundLocalError` raised in `_load_compcor` when
`compcor_cols` was never assigned. -/
inductive LoadError where
  | invalidStrategy (msg : String)
  | missingColumn (par : String)
  | noMatchingColumn (key : String)
  | unboundLocal (name : String)
  deriving DecidableEq, Repr

/-- A pandas DataFrame: ordered named columns and rows of optional
rational cells (`none` = NaN). -/
structure DataFrame where
  columns : List String
  rows : List (List (Option Rat))
  deriving DecidableEq, Repr

/-- Global variable `all_confounds` of `load_confounds.py`. -/
def all_confounds : List String :=
  ["motion", "high_pass", "wm_csf", "global", "compcor"]

/-- `_add_suffix(params, model)`: copy `params`, then for each `par` in
`params` append `par_derivative1` (modes derivatives/full), `par_power2`
(modes power2/full), `par_derivative1_power2` (mode full). -/
def _add_suffix (params : List String) (model : String) : List String :=
  params ++ params.flatMap (fun par =>
    (if model = "derivatives" ∨ model = "full" then [par ++ "_derivative1"] else []) ++
    (if model = "power2" ∨ model = "full" then [par ++ "_power2"] else []) ++
    (if model = "full" then [par ++ "_derivative1_power2"] else []))

/-- `_check_params(confounds_raw, params)`: raise at the first `par` of
`params` absent from the columns, else return `None`.  Takes only the
column-name list since the Python body reads nothing else. -/
def _check_params (columns : List String) : List String → Except LoadError Unit
  | [] => .ok ()
  | par :: rest =>
    if par ∈ columns then _check_params columns rest
    else .error (.missingColumn par)

/-- `_find_confounds(confounds_raw, keywords)`: for each keyword in order,
collect every column name containing it as a substring (in column order);
raise if a keyword matches no column. -/
def _find_confounds (columns : List String) : List String → Except LoadError (List String)
  | [] => .ok []
  | key :: keys =>
    let found := columns.filter (fun col => strContains col key)
    if found.isEmpty then .error (.noMatchingColumn key)
    else do
      let rest ← _find_confounds columns keys
      pure (found ++ rest)

/-- Helper for `_label_compcor`: walk the candidate indices, splitting the
generated names `<suffix>_comp_cor_<NN>` into (found, warned-about). -/
def labelCompcorAux (columns : List String) (suffix : String) :
    List Nat → List String × List String
  | [] => ([], [])
  | nn :: rest =>
    let col := suffix ++ "_comp_cor_" ++ zfill2 (Nat.repr nn)
    let (found, warned) := labelCompcorAux columns suffix rest
    if col ∈ columns then (col :: found, warned) else (found, col :: warned)

/-- `_label_compcor(confounds_raw, compcor_suffix, n_compcor)`: candidates
are indices `0 .. n_compcor` inclusive, zero-padded to two digits; absent
candidates produce a warning (`warnings.warn`, modelled as the second
component) and are skipped. -/
def _label_compcor (columns : List String) (suffix : String) (n_compcor : Nat) :
    List String × List String :=
  labelCompcorAux columns suffix (List.range (n_compcor + 1))

/-- Lexicographic strict order on character lists (Python string `<`). -/
def charListLt : List Char → List Char → Bool
  | [], [] => false
  | [], _ :: _ => true
  | _ :: _, [] => false
  | a :: as, b :: bs => if a < b then true else if b < a then false else charListLt as bs

/-- Stable insertion into a sorted list of strings: insert `s` before the
first `t` with `s ≤ t` (i.e. not `t < s`). -/
def insertSorted (s : String) : List String → List String
  | [] => [s]
  | t :: ts =>
    if charListLt t.toList s.toList then t :: insertSorted s ts else s :: t :: ts

/-- Python `list.sort()` on strings: stable lexicographic ascending sort. -/
def sortStrings : List String → List String
  | [] => []
  | s :: ss => insertSorted s (sortStrings ss)

/-- Cell lookup by column name — the cell of `row` under the first column
named `c` (used only after validation, when the name is present). -/
def getCell : List String → List (Option Rat) → String → Option Rat
  | [], _, _ => none
  | _ :: _, [], _ => none
  | col :: cols, v :: vs, c => if col = c then v else getCell cols vs c

/-- pandas `df[cols]`: column selection, preserving the requested order. -/
def selectCols (df : DataFrame) (cols : List String) : DataFrame :=
  ⟨cols, df.rows.map (fun row => cols.map (fun c => getCell df.columns row c))⟩

/-- pandas `pd.concat([a, b], axis=1)` on integer-indexed frames: columns
of `a` then columns of `b`; rows aligned by position, the shorter frame
padded with missing values. -/
def concatCols (a b : DataFrame) : DataFrame :=
  let n := max a.rows.length b.rows.length
  let pad := fun (df : DataFrame) =>
    df.rows ++ List.replicate (n - df.rows.length)
      (List.replicate df.columns.length (none : Option Rat))
  ⟨a.columns ++ b.columns, List.zipWith (· ++ ·) (pad a) (pad b)⟩

/-- The numeric kernel `StandardScaler.fit_transform` followed by
`PCA.fit_transform`: floating-point linear algebra outside the repository,
modelled as a parameter.  Its sklearn shape contract (as many output rows
as input rows, `n_components` columns each) is an explicit hypothesis of
the theorems that need it. -/
def NumericFn : Type :=
  List (List (Option Rat)) → Nat → List (List Rat)

/-- `_pca_motion(confounds_motion, n_components)`: `dropna()` (drop rows
containing a missing value), run the scaler and the PCA, wrap the matrix
as a frame (`pd.DataFrame` on a rectangular matrix names the columns
`0 .. width-1`) and rename the columns `motion_pca_<i+1>`. -/
def _pca_motion (numeric : NumericFn) (confounds_motion : DataFrame)
    (n_components : Nat) : DataFrame :=
  let clean := confounds_motion.rows.filter (fun r => r.all Option.isSome)
  let mat := numeric clean n_components
  let width := (mat.headD []).length
  ⟨(List.range width).map (fun i => "motion_pca_" ++ Nat.repr (i + 1)),
   mat.map (fun r => r.map some)⟩

/-- `_load_motion(confounds_raw, motion, n_motion)`: expand the six rigid
motion parameters by the motion model, validate, select, and apply PCA
only when `n_motion > 0`. -/
def _load_motion (numeric : NumericFn) (df : DataFrame) (motion : String)
    (n_motion : Int) : Except LoadError DataFrame := do
  let motion_params :=
    _add_suffix ["trans_x", "trans_y", "trans_z", "rot_x", "rot_y", "rot_z"] motion
  _check_params df.columns motion_params
  let confounds_motion := selectCols df motion_params
  if n_motion > 0 then pure (_pca_motion numeric confounds_motion n_motion.toNat)
  else pure confounds_motion

/-- `_load_high_pass(confounds_raw)`: keyword search for "cosine". -/
def _load_high_pass (df : DataFrame) : Except LoadError DataFrame := do
  let high_pass_params ← _find_confounds df.columns ["cosine"]
  pure (selectCols df high_pass_params)

/-- `_load_wm_csf(confounds_raw, wm_csf)`. -/
def _load_wm_csf (df : DataFrame) (wm_csf : String) : Except LoadError DataFrame := do
  let wm_csf_params := _add_suffix ["csf", "white_matter"] wm_csf
  _check_params df.columns wm_csf_params
  pure (selectCols df wm_csf_params)

/-- `_load_global(confounds_raw, global_signal)`. -/
def _load_global (df : DataFrame) (global_signal : String) :
    Except LoadError DataFrame := do
  let global_params := _add_suffix ["global_signal"] global_signal
  _check_params df.columns global_params
  pure (selectCols df global_params)

/-- `_load_compcor(confounds_raw, compcor, n_compcor)`: three independent
`if` statements assign `compcor_cols` for "anat" / "temp" / "full"; any
other variant leaves it unassigned and `compcor_cols.sort()` raises
`UnboundLocalError`, modelled by the `none` branch. -/
def _load_compcor (df : DataFrame) (compcor : String) (n_compcor : Nat) :
    Except LoadError DataFrame :=
  let cols1 : Option (List String) :=
    if compcor = "anat" then some (_label_compcor df.columns "a" n_compcor).1 else none
  let cols2 :=
    if compcor = "temp" then some (_label_compcor df.columns "t" n_compcor).1 else cols1
  let cols3 :=
    if compcor = "full" then
      some ((_label_compcor df.columns "a" n_compcor).1 ++
            (_label_compcor df.columns "t" n_compcor).1)
    else cols2
  match cols3 with
  | none => .error (.unboundLocal "compcor_cols")
  | some cols => do
    let sorted := sortStrings cols
    _check_params df.columns sorted
    pure (selectCols df sorted)

/-- The Python `strategy` argument before validation: either an actual
list of strings, or any non-list value. -/
inductive StrategySpec where
  | ofList (cats : List String)
  | nonList
  deriving DecidableEq, Repr

/-- The member loop of `_sanitize_strategy`: raise at the first entry not
in `all_confounds`. -/
def checkStrategyCats : List String → Except LoadError Unit
  | [] => .ok ()
  | c :: rest =>
    if c ∈ all_confounds then checkStrategyCats rest
    else .error (.invalidStrategy (c ++ " is not a supported type of confounds."))

/-- `_sanitize_strategy(strategy)`: non-lists are rejected; list members
must all belong to `all_confounds`; the (possibly empty) list is returned. -/
def _sanitize_strategy : StrategySpec → Except LoadError (List String)
  | .nonList => .error (.invalidStrategy "strategy needs to be a list of strings")
  | .ofList cats => do
    checkStrategyCats cats
    pure cats

/-- `load` input: a single frame or a list of frames (`_sanitize_confounds`
distinguishes the two).  File paths are read through external I/O
(`_confounds2df`) and arrive here as their parsed frames. -/
inductive ConfInput where
  | single (df : DataFrame)
  | ofList (dfs : List DataFrame)
  deriving DecidableEq, Repr

/-- `load` output: a single result frame, or a list of them in input
order. -/
inductive ConfOutput where
  | single (df : DataFrame)
  | ofList (dfs : List DataFrame)
  deriving DecidableEq, Repr

/-- The `Confounds` object: configuration set by `__init__` plus the
`confounds_` attribute set by `load`. -/
structure Confounds where
  strategy : List String
  motion : String
  n_motion : Int
  wm_csf : String
  global_signal : String
  compcor : String
  n_compcor : Nat
  confounds_ : Option ConfOutput := none
  deriving Repr

/-- `Confounds.__init__`: validates only the strategy; every other
argument is stored unexamined. -/
def Confounds.init (strategy : StrategySpec) (motion : String) (n_motion : Int)
    (wm_csf : String) (global_signal : String) (compcor : String)
    (n_compcor : Nat) : Except LoadError Confounds := do
  let s ← _sanitize_strategy strategy
  pure ⟨s, motion, n_motion, wm_csf, global_signal, compcor, n_compcor, none⟩

/-- `Confounds._load_single(confounds_raw)`: start from an empty frame and
column-concatenate each category present in the strategy, in the fixed
source order motion, high_pass, wm_csf, global, compcor. -/
def Confounds.loadSingle (numeric : NumericFn) (c : Confounds) (df : DataFrame) :
    Except LoadError DataFrame :=
  let confounds0 : DataFrame := ⟨[], []⟩
  (if "motion" ∈ c.strategy then
      (_load_motion numeric df c.motion c.n_motion).bind fun m =>
        .ok (concatCols confounds0 m)
    else .ok confounds0).bind fun confounds1 =>
  (if "high_pass" ∈ c.strategy then
      (_load_high_pass df).bind fun h => .ok (concatCols confounds1 h)
    else .ok confounds1).bind fun confounds2 =>
  (if "wm_csf" ∈ c.strategy then
      (_load_wm_csf df c.wm_csf).bind fun w => .ok (concatCols confounds2 w)
    else .ok confounds2).bind fun confounds3 =>
  (if "global" ∈ c.strategy then
      (_load_global df c.global_signal).bind fun g => .ok (concatCols confounds3 g)
    else .ok confounds3).bind fun confounds4 =>
  (if "compcor" ∈ c.strategy then
      (_load_compcor df c.compcor c.n_compcor).bind fun cc =>
        .ok (concatCols confounds4 cc)
    else .ok confounds4).bind fun confounds5 =>
  .ok confounds5

/-- The `for file in confounds_raw` loop of `Confounds.load`: run
`_load_single` on each frame in order, appending the results; the first
failure aborts the whole load. -/
def loadEach (numeric : NumericFn) (c : Confounds) :
    List DataFrame → Except LoadError (List DataFrame)
  | [] => .ok []
  | df :: rest => do
    let r ← c.loadSingle numeric df
    let rs ← loadEach numeric c rest
    pure (r :: rs)

/-- `Confounds.load(confounds_raw)`: `_sanitize_confounds` wraps a single
input in a one-element list, every element goes through `_load_single`,
and a single input is unwrapped again; the result is stored in
`confounds_` and returned. -/
def Confounds.load (numeric : NumericFn) (c : Confounds) (inp : ConfInput) :
    Except LoadError (ConfOutput × Confounds) :=
  match inp with
  | .single df => do
    let r ← c.loadSingle numeric df
    let out := ConfOutput.single r
    pure (out, { c with confounds_ := some out })
  | .ofList dfs => do
    let rs ← loadEach numeric c dfs
    let out := ConfOutput.ofList rs
    pure (out, { c with confounds_ := some out })

/-- The loader the orchestrator runs for a given category name (used to
state what `_load_single` concatenates). -/
def categoryLoad (numeric : NumericFn) (c : Confounds) (df : DataFrame) :
    String → Except LoadError DataFrame
  | "motion" => _load_motion numeric df c.motion c.n_motion
  | "high_pass" => _load_high_pass df
  | "wm_csf" => _load_wm_csf df c.wm_csf
  | "global" => _load_global df c.global_signal
  | "compcor" => _load_compcor df c.compcor c.n_compcor
  | _ => .ok ⟨[], []⟩

/-- Columns a category's loader contributes (empty on failure; only used
under the hypothesis that the whole load succeeded). -/
def categoryCols (numeric : NumericFn) (c : Confounds) (df : DataFrame)
    (cat : String) : List String :=
  match categoryLoad numeric c df cat with
  | .ok r => r.columns
  | .error _ => []

/-- The columns of a loader result, empty on failure. -/
def okColumns (r : Except LoadError DataFrame) : List String :=
  match r with
  | .ok x => x.columns
  | .error _ => []

def numeric0 : NumericFn := fun rows k => rows.map (fun _ => List.replicate k 0)

def df0 : DataFrame := ⟨["cosine00", "junk"], [[some 1, some 2], [some 3, some 4]]⟩

def c0 : Confounds := ⟨["high_pass"], "full", 0, "basic", "basic", "anat", 6, none⟩

/-- Modelled from the spec (claim C2): expansion grouped by suffix — all
base names, then the `_derivative1` name for every base, then the
`_power2` name for every base, then the `_derivative1_power2` name for
every base.  Stated for comparison with `_add_suffix`. -/
def specGroupedExpansion (params : List String) (model : String) : List String :=
  params ++
  (if model = "derivatives" ∨ model = "full" then params.map (· ++ "_derivative1") else []) ++
  (if model = "power2" ∨ model = "full" then params.map (· ++ "_power2") else []) ++
  (if model = "full" then params.map (· ++ "_derivative1_power2") else [])

/-- A motion-only frame used as concrete witness input. -/
def df1 : DataFrame :=
  ⟨["trans_x", "trans_y", "trans_z", "rot_x", "rot_y", "rot_z"],
   [[some 1, some 2, some 3, some 4, some 5, some 6]]⟩

def r0 : DataFrame := ⟨["cosine00"], [[some 1], [some 3]]⟩

def out0 : ConfOutput := .ofList [r0, r0]

def c0' : Confounds := { c0 with confounds_ := some out0 }

lemma length_flatMap_const {α β : Type} (f : α → List β) (k : Nat)
    (h : ∀ a, (f a).length = k) : ∀ l : List α, (l.flatMap f).length = k * l.length := by
  intro l
  induction l with
  | nil => simp
  | cons a l ih =>
    simp only [List.flatMap_cons, List.length_append, ih, h, List.length_cons]
    ring

/-- C3: for every base-name list `B` and every mode string `m`,
`_add_suffix` is total (it is a Lean function), its output starts with `B`
unchanged and in order, and its length is `|B|` for "basic" or any
unrecognized mode, `2|B|` for "derivatives" or "power2", and `4|B|` for
"full". -/
theorem add_suffix_shape (B : List String) (m : String) :
    (_add_suffix B m).take B.length = B ∧
    (_add_suffix B m).length =
      (if m = "full" then 4
       else if m = "derivatives" ∨ m = "power2" then 2 else 1) * B.length := by
  constructor
  · simp [_add_suffix, List.take_left]
  · by_cases hf : m = "full"
    · simp only [_add_suffix, List.length_append, hf, if_true]
      rw [length_flatMap_const _ 3 (by intro a; simp)]
      ring
    · by_cases hd : m = "derivatives"
      · simp only [_add_suffix, List.length_append, hf, hd, if_false, if_true]
        rw [length_flatMap_const _ 1 (by intro a; simp [hd, hf])]
        simp [hd]
        ring
      · by_cases hp : m = "power2"
        · simp only [_add_suffix, List.length_append, hf, if_false]
          rw [length_flatMap_const _ 1 (by intro a; simp [hd, hf, hp])]
          simp [hd, hp]
          ring
        · simp only [_add_suffix, List.length_append, hf, if_false]
          rw [length_flatMap_const _ 0 (by intro a; simp [hd, hf, hp])]
          simp [hd, hp]

lemma flatMap_singleton_map {α β : Type} (f : α → β) (l : List α) :
    (l.flatMap fun x => [f x]) = l.map f := by
  induction l <;> simp_all

/-- C2 counterexample: already for two bases and mode "full", the code
appends the three suffixed names per base (interleaved), not grouped by
suffix as the claim states. -/
theorem add_suffix_not_grouped :
    _add_suffix ["a", "b"] "full" ≠ specGroupedExpansion ["a", "b"] "full" := by
  decide

/-- C2 amended: for modes "derivatives" and "power2" the output is all
bases followed by the suffixed name for every base (which coincides with
the claimed grouping); for mode "full" the output is all bases followed,
for each base in order, by its `_derivative1`, `_power2`,
`_derivative1_power2` names consecutively — per base, not grouped by
suffix. -/
theorem add_suffix_order (B : List String) :
    _add_suffix B "derivatives" = B ++ B.map (· ++ "_derivative1") ∧
    _add_suffix B "power2" = B ++ B.map (· ++ "_power2") ∧
    _add_suffix B "full" = B ++ B.flatMap (fun p =>
      [p ++ "_derivative1", p ++ "_power2", p ++ "_derivative1_power2"]) := by
  refine ⟨?_, ?_, ?_⟩ <;>
    simp [_add_suffix, flatMap_singleton_map]

lemma checkParams_spec (cols params : List String) :
    (_check_params cols params = .ok () ↔ ∀ p ∈ params, p ∈ cols) ∧
    (∀ e, _check_params cols params = .error e →
      ∃ p ∈ params, p ∉ cols ∧ e = .missingColumn p) := by
  induction params with
  | nil => simp [_check_params]
  | cons par rest ih =>
    by_cases hp : par ∈ cols
    · simp only [_check_params, if_pos hp]
      constructor
      · rw [ih.1]
        simp [hp]
      · intro e he
        obtain ⟨p, hmem, hout, he'⟩ := ih.2 e he
        exact ⟨p, List.mem_cons_of_mem _ hmem, hout, he'⟩
    · simp only [_check_params, if_neg hp]
      constructor
      · simp only [false_iff, reduceCtorEq]
        intro hall
        exact hp (hall par (List.mem_cons_self _ _))
      · intro e he
        refine ⟨par, List.mem_cons_self _ _, hp, ?_⟩
        cases he
        rfl

/-- C4: the column validator succeeds exactly when every required name is
present among the table's columns (extra columns are irrelevant: only
membership of the required names is tested), and every failure is a
`missingColumn` error naming an absent required column.  The validator
returns `Unit` and takes the frame apart only through its column list, so
it has no effect on the table. -/
theorem check_params_ok_iff (cols params : List String) :
    (_check_params cols params = .ok () ↔ ∀ p ∈ params, p ∈ cols) ∧
    (∀ e, _check_params cols params = .error e →
      ∃ p ∈ params, p ∉ cols ∧ e = .missingColumn p) :=
  checkParams_spec cols params

theorem check_params_witness :
    ∃ p ∈ ["a", "b"], p ∉ ["a"] ∧ LoadError.missingColumn "b" = .missingColumn p :=
  (check_params_ok_iff ["a"] ["a", "b"]).2 (.missingColumn "b") rfl

lemma findConfounds_base (cols keys : List String) :
    ((∀ k ∈ keys, ∃ c ∈ cols, strContains c k = true) →
      _find_confounds cols keys =
        .ok (keys.flatMap fun k => cols.filter (fun c => strContains c k))) ∧
    (∀ e, _find_confounds cols keys = .error e →
      ∃ k ∈ keys, (∀ c ∈ cols, strContains c k = false) ∧ e = .noMatchingColumn k) := by
  induction keys with
  | nil => simp [_find_confounds]
  | cons key rest ih =>
    by_cases hk : (cols.filter (fun c => strContains c key)).isEmpty
    · constructor
      · intro hall
        obtain ⟨c, hc, hmatch⟩ := hall key (List.mem_cons_self _ _)
        rw [List.isEmpty_iff, List.filter_eq_nil_iff] at hk
        exact absurd hmatch (by simpa using hk c hc)
      · intro e he
        simp only [_find_confounds, if_pos hk] at he
        cases he
        refine ⟨key, List.mem_cons_self _ _, ?_, rfl⟩
        rw [List.isEmpty_iff, List.filter_eq_nil_iff] at hk
        intro c hc
        simpa using hk c hc
    · simp only [_find_confounds, if_neg hk]
      constructor
      · intro hall
        rw [ih.1 (fun k hkm => hall k (List.mem_cons_of_mem _ hkm))]
        simp [List.flatMap_cons]
      · intro e he
        cases hrest : _find_confounds cols rest with
        | ok v => rw [hrest] at he; simp [Except.bind] at he
        | error e' =>
          rw [hrest] at he
          simp only [Bind.bind, Except.bind] at he
          cases he
          obtain ⟨k, hkm, hnone, he'⟩ := ih.2 _ hrest
          exact ⟨k, List.mem_cons_of_mem _ hkm, hnone, he'⟩

lemma findConfounds_err (cols : List String) :
    ∀ (keys : List String) (k : String), k ∈ keys →
      (∀ c ∈ cols, strContains c k = false) →
      ∃ kk ∈ keys, (∀ c ∈ cols, strContains c kk = false) ∧
        _find_confounds cols keys = .error (.noMatchingColumn kk) := by
  intro keys
  induction keys with
  | nil =>
    intro k hk
    cases hk
  | cons key rest ih =>
    intro k hk hz
    by_cases hke : (cols.filter (fun c => strContains c key)).isEmpty
    · refine ⟨key, List.mem_cons_self _ _, ?_, ?_⟩
      · rw [List.isEmpty_iff, List.filter_eq_nil_iff] at hke
        intro c hc
        simpa using hke c hc
      · simp only [_find_confounds, if_pos hke]
    · have hkr : k ∈ rest := by
        cases hk with
        | head =>
          exfalso
          apply hke
          rw [List.isEmpty_iff, List.filter_eq_nil_iff]
          intro c hc
          simpa using hz c hc
        | tail _ h => exact h
      obtain ⟨kk, hkk, hzz, herr⟩ := ih k hkr hz
      refine ⟨kk, List.mem_cons_of_mem _ hkk, hzz, ?_⟩
      simp only [_find_confounds, if_neg hke, herr, Bind.bind, Except.bind]

/-- C5: the keyword finder raises `noMatchingColumn` if and only if some
keyword is a substring of zero column names: every failure names such a
keyword, some keyword matching zero columns forces a `noMatchingColumn`
failure, and when every keyword matches it returns the concatenation,
over the keywords in input order, of the column names containing that
keyword, each keyword's matches in the table's column order. -/
theorem find_confounds_spec (cols keys : List String) :
    ((∀ k ∈ keys, ∃ c ∈ cols, strContains c k = true) →
      _find_confounds cols keys =
        .ok (keys.flatMap fun k => cols.filter (fun c => strContains c k))) ∧
    (∀ e, _find_confounds cols keys = .error e →
      ∃ k ∈ keys, (∀ c ∈ cols, strContains c k = false) ∧ e = .noMatchingColumn k) ∧
    ((∃ k ∈ keys, ∀ c ∈ cols, strContains c k = false) →
      ∃ k ∈ keys, (∀ c ∈ cols, strContains c k = false) ∧
        _find_confounds cols keys = .error (.noMatchingColumn k)) := by
  refine ⟨(findConfounds_base cols keys).1, (findConfounds_base cols keys).2, ?_⟩
  rintro ⟨k, hk, hz⟩
  exact findConfounds_err cols keys k hk hz

theorem find_confounds_witness :
    (_find_confounds ["cosine00", "junk", "cosine01"] ["cosine"] =
      .ok (["cosine"].flatMap fun k =>
        ["cosine00", "junk", "cosine01"].filter (fun c => strContains c k))) ∧
    ∃ k ∈ ["nope"], (∀ c ∈ ["cosine00"], strContains c k = false) ∧
      _find_confounds ["cosine00"] ["nope"] = .error (.noMatchingColumn k) :=
  ⟨(find_confounds_spec ["cosine00", "junk", "cosine01"] ["cosine"]).1 (by decide),
   (find_confounds_spec ["cosine00"] ["nope"]).2.2 (by decide)⟩

/-- C6 helper: the index walk splits the candidate names into those
present (in index order) and those absent (warned about, in index
order). -/
lemma labelCompcorAux_eq (cols : List String) (p : String) (l : List Nat) :
    labelCompcorAux cols p l =
      ((l.map fun nn => p ++ "_comp_cor_" ++ zfill2 (Nat.repr nn)).filter
         (fun c => c ∈ cols),
       (l.map fun nn => p ++ "_comp_cor_" ++ zfill2 (Nat.repr nn)).filter
         (fun c => c ∉ cols)) := by
  induction l with
  | nil => simp [labelCompcorAux]
  | cons nn rest ih =>
    simp only [labelCompcorAux, ih, List.map_cons, List.filter_cons]
    by_cases hc : (p ++ "_comp_cor_" ++ zfill2 (Nat.repr nn)) ∈ cols <;>
      simp [hc]

/-- C6: the indexed component selector considers exactly the candidates
`<p>_comp_cor_<NN>` for `NN = 0 .. N` inclusive, zero-padded to two
digits; it returns (first component) exactly the candidates present among
the table's columns, in index order, and emits one non-fatal warning
(second component) for each absent candidate, never failing. -/
theorem label_compcor_spec (cols : List String) (p : String) (N : Nat) :
    _label_compcor cols p N =
      (((List.range (N + 1)).map fun nn =>
          p ++ "_comp_cor_" ++ zfill2 (Nat.repr nn)).filter (fun c => c ∈ cols),
       ((List.range (N + 1)).map fun nn =>
          p ++ "_comp_cor_" ++ zfill2 (Nat.repr nn)).filter (fun c => c ∉ cols)) :=
  labelCompcorAux_eq cols p (List.range (N + 1))

lemma checkStrategyCats_ok_iff (cats : List String) :
    (checkStrategyCats cats = .ok () ↔ ∀ c ∈ cats, c ∈ all_confounds) ∧
    (∀ e, checkStrategyCats cats = .error e → ∃ msg, e = .invalidStrategy msg) := by
  induction cats with
  | nil => simp [checkStrategyCats]
  | cons c rest ih =>
    by_cases hc : c ∈ all_confounds
    · simp only [checkStrategyCats, if_pos hc]
      constructor
      · rw [ih.1]; simp [hc]
      · exact ih.2
    · simp only [checkStrategyCats, if_neg hc]
      constructor
      · simp only [false_iff, reduceCtorEq]
        intro hall
        exact hc (hall c (List.mem_cons_self _ _))
      · intro e he
        cases he
        exact ⟨_, rfl⟩

/-- C1 counterexample: the empty strategy list is accepted — construction
succeeds on `[]`, although the claim says an empty specification raises
`InvalidStrategy`. -/
theorem init_accepts_empty_strategy :
    Confounds.init (.ofList []) "full" 0 "basic" "basic" "anat" 6 =
      .ok ⟨[], "full", 0, "basic", "basic", "anat", 6, none⟩ := rfl

/-- C1 amended: construction (which reads no table — it is a pure function
of the arguments) raises `InvalidStrategy` if and only if the strategy
specification is not a list or contains a category name outside
`all_confounds`; every list whose members are all vocabulary names — the
empty list included — is accepted. -/
theorem init_strategy_validation (strategy : StrategySpec) (motion : String)
    (n_motion : Int) (wm_csf global_signal compcor : String) (n_compcor : Nat) :
    ((∃ conf, Confounds.init strategy motion n_motion wm_csf global_signal
        compcor n_compcor = .ok conf) ↔
      ∃ cats, strategy = .ofList cats ∧ ∀ c ∈ cats, c ∈ all_confounds) ∧
    (∀ e, Confounds.init strategy motion n_motion wm_csf global_signal
        compcor n_compcor = .error e → ∃ msg, e = .invalidStrategy msg) := by
  cases strategy with
  | nonList =>
    constructor
    · simp [Confounds.init, _sanitize_strategy, Bind.bind, Except.bind]
    · intro e he
      simp only [Confounds.init, _sanitize_strategy, Bind.bind, Except.bind] at he
      cases he
      exact ⟨_, rfl⟩
  | ofList cats =>
    constructor
    · constructor
      · intro _
        refine ⟨cats, rfl, ?_⟩
        by_contra hnot
        rw [← (checkStrategyCats_ok_iff cats).1] at hnot
        cases hck : checkStrategyCats cats with
        | ok u =>
          cases u
          exact hnot hck
        | error e =>
          rename_i hex
          obtain ⟨conf, hconf⟩ := hex
          simp only [Confounds.init, _sanitize_strategy, Bind.bind, Except.bind,
            hck] at hconf
          exact Except.noConfusion hconf
      · rintro ⟨cats', heq, hall⟩
        cases heq
        have hok : checkStrategyCats cats = .ok () := (checkStrategyCats_ok_iff cats).1.2 hall
        refine ⟨⟨cats, motion, n_motion, wm_csf, global_signal, compcor, n_compcor, none⟩, ?_⟩
        simp [Confounds.init, _sanitize_strategy, Bind.bind, Except.bind, hok,
          Pure.pure, Except.pure]
    · intro e he
      cases hck : checkStrategyCats cats with
      | ok u =>
        cases u
        simp [Confounds.init, _sanitize_strategy, Bind.bind, Except.bind, hck,
          Pure.pure, Except.pure] at he
      | error e' =>
        simp only [Confounds.init, _sanitize_strategy, Bind.bind, Except.bind,
          hck] at he
        cases he
        exact (checkStrategyCats_ok_iff cats).2 _ hck

theorem init_strategy_validation_witness :
    ∃ msg, LoadError.invalidStrategy "strategy needs to be a list of strings" =
      .invalidStrategy msg :=
  (init_strategy_validation .nonList "full" 0 "basic" "basic" "anat" 6).2
    (.invalidStrategy "strategy needs to be a list of strings") rfl

/-- C10: the constructor validates only the strategy list — the compcor
variant and the expansion-mode strings are stored without any check — and
for every compcor variant outside {anat, temp, full}, the compcor loader
(and hence a load whose strategy reaches it, e.g. strategy = ["compcor"])
fails with the unbound-local error on `compcor_cols`, not with an
`invalidStrategy` or `missingColumn` error. -/
theorem init_no_mode_validation (cats : List String)
    (hcats : ∀ c ∈ cats, c ∈ all_confounds)
    (motion wm_csf global_signal compcor : String) (n_motion : Int) (n_compcor : Nat)
    (hcc : compcor ∉ (["anat", "temp", "full"] : List String)) :
    Confounds.init (.ofList cats) motion n_motion wm_csf global_signal compcor
        n_compcor =
      .ok ⟨cats, motion, n_motion, wm_csf, global_signal, compcor, n_compcor, none⟩ ∧
    (∀ df n, _load_compcor df compcor n = .error (.unboundLocal "compcor_cols")) ∧
    (∀ (numeric : NumericFn) df,
      Confounds.loadSingle numeric
          ⟨["compcor"], motion, n_motion, wm_csf, global_signal, compcor,
            n_compcor, none⟩ df =
        .error (.unboundLocal "compcor_cols")) := by
  have hanat : ¬ compcor = "anat" := fun h => hcc (by simp [h])
  have htemp : ¬ compcor = "temp" := fun h => hcc (by simp [h])
  have hfull : ¬ compcor = "full" := fun h => hcc (by simp [h])
  have hload : ∀ df n, _load_compcor df compcor n =
      .error (.unboundLocal "compcor_cols") := by
    intro df n
    simp [_load_compcor, hanat, htemp, hfull]
  refine ⟨?_, hload, ?_⟩
  · have hok : checkStrategyCats cats = .ok () := (checkStrategyCats_ok_iff cats).1.2 hcats
    simp [Confounds.init, _sanitize_strategy, Bind.bind, Except.bind, hok,
      Pure.pure, Except.pure]
  · intro numeric df
    simp [Confounds.loadSingle, Bind.bind, Except.bind, hload, Pure.pure, Except.pure]

theorem init_no_mode_validation_witness :
    Confounds.init (.ofList ["motion"]) "full" 0 "basic" "basic" "bogus" 6 =
      .ok ⟨["motion"], "full", 0, "basic", "basic", "bogus", 6, none⟩ ∧
    (∀ df n, _load_compcor df "bogus" n = .error (.unboundLocal "compcor_cols")) ∧
    (∀ (numeric : NumericFn) df,
      Confounds.loadSingle numeric
          ⟨["compcor"], "full", 0, "basic", "basic", "bogus", 6, none⟩ df =
        .error (.unboundLocal "compcor_cols")) :=
  init_no_mode_validation ["motion"] (by decide) "full" "basic" "basic" "bogus" 0 6
    (by decide)

lemma loadEach_ok (numeric : NumericFn) (c : Confounds) :
    ∀ (dfs rs : List DataFrame), loadEach numeric c dfs = .ok rs →
      rs.length = dfs.length ∧
      ∀ i (h1 : i < dfs.length) (h2 : i < rs.length),
        c.loadSingle numeric (dfs.get ⟨i, h1⟩) = .ok (rs.get ⟨i, h2⟩) := by
  intro dfs
  induction dfs with
  | nil =>
    intro rs h
    simp only [loadEach] at h
    cases h
    simp
  | cons df rest ih =>
    intro rs h
    simp only [loadEach] at h
    cases hr : c.loadSingle numeric df with
    | error e =>
      rw [hr] at h
      simp only [Bind.bind, Except.bind] at h
      exact Except.noConfusion h
    | ok r =>
      rw [hr] at h
      cases hrest : loadEach numeric c rest with
      | error e =>
        rw [hrest] at h
        simp only [Bind.bind, Except.bind] at h
        exact Except.noConfusion h
      | ok vs =>
        rw [hrest] at h
        simp only [Bind.bind, Except.bind, Pure.pure, Except.pure] at h
        cases h
        obtain ⟨hlen, hpt⟩ := ih vs hrest
        refine ⟨by simp [hlen], ?_⟩
        intro i h1 h2
        cases i with
        | zero => simpa using hr
        | succ j =>
          simp only [List.get_cons_succ]
          exact hpt j (by simpa using h1) (by simpa using h2)

/-- C7: when `load` succeeds, a single (non-list) input yields a single
result table (the output of `_load_single` on it, not wrapped in a list),
a list input of length n yields a list of n result tables where the i-th
output is `_load_single` of the i-th input, and the returned result is
also stored in the `confounds_` attribute. -/
theorem load_shape (numeric : NumericFn) (c : Confounds) (inp : ConfInput)
    (out : ConfOutput) (c' : Confounds)
    (h : Confounds.load numeric c inp = .ok (out, c')) :
    c'.confounds_ = some out ∧
    (∀ df, inp = .single df →
      ∃ r, out = .single r ∧ c.loadSingle numeric df = .ok r) ∧
    (∀ dfs, inp = .ofList dfs →
      ∃ rs, out = .ofList rs ∧ rs.length = dfs.length ∧
        ∀ i (h1 : i < dfs.length) (h2 : i < rs.length),
          c.loadSingle numeric (dfs.get ⟨i, h1⟩) = .ok (rs.get ⟨i, h2⟩)) := by
  cases inp with
  | single df =>
    simp only [Confounds.load] at h
    cases hr : c.loadSingle numeric df with
    | error e =>
      rw [hr] at h
      simp only [Bind.bind, Except.bind] at h
      exact Except.noConfusion h
    | ok r =>
      rw [hr] at h
      simp only [Bind.bind, Except.bind, Pure.pure, Except.pure] at h
      cases h
      refine ⟨rfl, ?_, ?_⟩
      · intro df' hdf
        cases hdf
        exact ⟨r, rfl, hr⟩
      · intro dfs hdfs
        exact ConfInput.noConfusion hdfs
  | ofList dfs =>
    simp only [Confounds.load] at h
    cases hr : loadEach numeric c dfs with
    | error e =>
      rw [hr] at h
      simp only [Bind.bind, Except.bind] at h
      exact Except.noConfusion h
    | ok rs =>
      rw [hr] at h
      simp only [Bind.bind, Except.bind, Pure.pure, Except.pure] at h
      cases h
      obtain ⟨hlen, hpt⟩ := loadEach_ok numeric c dfs rs hr
      refine ⟨rfl, ?_, ?_⟩
      · intro df hdf
        exact ConfInput.noConfusion hdf
      · intro dfs' hdfs
        cases hdfs
        exact ⟨rs, rfl, hlen, hpt⟩

theorem load_shape_witness :
    c0'.confounds_ = some out0 ∧
    ∃ rs, out0 = .ofList rs ∧ rs.length = [df0, df0].length ∧
      ∀ i (h1 : i < [df0, df0].length) (h2 : i < rs.length),
        c0.loadSingle numeric0 ([df0, df0].get ⟨i, h1⟩) = .ok (rs.get ⟨i, h2⟩) :=
  have h := load_shape numeric0 c0 (.ofList [df0, df0]) out0 c0' (by rfl)
  ⟨h.1, h.2.2 [df0, df0] rfl⟩

lemma categoryCols_eq_okColumns (numeric : NumericFn) (c : Confounds)
    (df : DataFrame) (cat : String) :
    categoryCols numeric c df cat = okColumns (categoryLoad numeric c df cat) := rfl

lemma concatCols_columns (a b : DataFrame) :
    (concatCols a b).columns = a.columns ++ b.columns := rfl

lemma bind_ok_destruct {α β : Type} {ma : Except LoadError α}
    {f : α → Except LoadError β} {b : β} (h : ma.bind f = .ok b) :
    ∃ a, ma = .ok a ∧ f a = .ok b := by
  cases ma with
  | error e => simp [Except.bind] at h
  | ok a => exact ⟨a, rfl, by simpa [Except.bind] using h⟩

lemma ifconcat_ok (cond : Prop) [Decidable cond] (L : Except LoadError DataFrame)
    (acc b : DataFrame)
    (h : (if cond then L.bind fun x => .ok (concatCols acc x)
          else .ok acc) = .ok b) :
    b.columns = acc.columns ++ (if cond then okColumns L else []) := by
  split at h
  · obtain ⟨x, hx, hpure⟩ := bind_ok_destruct h
    cases hpure
    simp_all [okColumns, concatCols_columns]
  · cases h
    simp_all

/-- C9: whenever `_load_single` succeeds, the result's columns are the
concatenation of the active category loaders' columns taken in the fixed
source order motion, high_pass, wm_csf, global, compcor — the right-hand
side depends on the strategy list only through membership, so the order in
which category names appear in the strategy list is irrelevant — with each
category's own column order preserved. -/
theorem load_single_fixed_order (numeric : NumericFn) (c : Confounds)
    (df : DataFrame) (out : DataFrame)
    (h : c.loadSingle numeric df = .ok out) :
    out.columns =
      (all_confounds.filter (fun cat => cat ∈ c.strategy)).flatMap
        (categoryCols numeric c df) := by
  simp only [Confounds.loadSingle] at h
  obtain ⟨c1, h1, h⟩ := bind_ok_destruct h
  obtain ⟨c2, h2, h⟩ := bind_ok_destruct h
  obtain ⟨c3, h3, h⟩ := bind_ok_destruct h
  obtain ⟨c4, h4, h⟩ := bind_ok_destruct h
  obtain ⟨c5, h5, h⟩ := bind_ok_destruct h
  cases h
  have e1 := ifconcat_ok _ _ _ _ h1
  have e2 := ifconcat_ok _ _ _ _ h2
  have e3 := ifconcat_ok _ _ _ _ h3
  have e4 := ifconcat_ok _ _ _ _ h4
  have e5 := ifconcat_ok _ _ _ _ h5
  rw [e5, e4, e3, e2, e1]
  simp only [all_confounds, categoryCols_eq_okColumns]
  by_cases m1 : "motion" ∈ c.strategy <;>
    by_cases m2 : "high_pass" ∈ c.strategy <;>
      by_cases m3 : "wm_csf" ∈ c.strategy <;>
        by_cases m4 : "global" ∈ c.strategy <;>
          by_cases m5 : "compcor" ∈ c.strategy <;>
            simp [m1, m2, m3, m4, m5, categoryCols_eq_okColumns, categoryLoad,
              List.append_assoc]

theorem load_single_fixed_order_witness :
    r0.columns =
      (all_confounds.filter (fun cat => cat ∈ c0.strategy)).flatMap
        (categoryCols numeric0 c0 df0) :=
  load_single_fixed_order numeric0 c0 df0 r0 (by rfl)

lemma getCell_isSome :
    ∀ (cols : List String) (row : List (Option Rat)) (c : String),
      c ∈ cols → row.length = cols.length → (∀ x ∈ row, x.isSome = true) →
      (getCell cols row c).isSome = true := by
  intro cols
  induction cols with
  | nil => intro row c hc; cases hc
  | cons col cols ih =>
    intro row c hc hlen hall
    cases row with
    | nil => simp at hlen
    | cons v vs =>
      by_cases heq : col = c
      · simp only [getCell, if_pos heq]
        exact hall v (List.mem_cons_self _ _)
      · simp only [getCell, if_neg heq]
        have hc' : c ∈ cols := by
          cases hc with
          | head => exact absurd rfl heq
          | tail _ h => exact h
        exact ih vs c hc' (by simpa using hlen)
          (fun x hx => hall x (List.mem_cons_of_mem _ hx))

lemma pca_motion_shape (numeric : NumericFn) (cm : DataFrame) (k : Nat)
    (hshape : ∀ rows kk, (numeric rows kk).length = rows.length ∧
      ∀ r ∈ numeric rows kk, r.length = kk)
    (hall : ∀ r ∈ cm.rows, r.all Option.isSome = true)
    (hpos : 0 < cm.rows.length) :
    (_pca_motion numeric cm k).columns =
      (List.range k).map (fun i => "motion_pca_" ++ Nat.repr (i + 1)) ∧
    (_pca_motion numeric cm k).rows.length = cm.rows.length := by
  have hfilter : cm.rows.filter (fun r => r.all Option.isSome) = cm.rows :=
    List.filter_eq_self.mpr hall
  have hmatlen : (numeric (cm.rows.filter fun r => r.all Option.isSome) k).length =
      cm.rows.length := by
    rw [hfilter]
    exact (hshape cm.rows k).1
  obtain ⟨r, rest, hmat⟩ :
      ∃ r rest, numeric (cm.rows.filter fun r => r.all Option.isSome) k = r :: rest := by
    cases hm : numeric (cm.rows.filter fun r => r.all Option.isSome) k with
    | nil =>
      rw [hm] at hmatlen
      simp at hmatlen
      omega
    | cons r rest => exact ⟨r, rest, rfl⟩
  have hrlen : r.length = k := by
    refine (hshape (cm.rows.filter fun r => r.all Option.isSome) k).2 r ?_
    rw [hmat]
    exact List.mem_cons_self _ _
  constructor
  · simp only [_pca_motion, hmat, List.headD_cons, hrlen]
  · simp only [_pca_motion, List.length_map]
    exact hmatlen

/-- C8: under the motion-parameter columns being present, (a) a PCA target
count that is zero or negative leaves the validated expanded motion
columns unchanged (no PCA step), and (b) a positive integer target `k`, a
numeric kernel obeying the sklearn shape contract, a rectangular table
with no missing values and at least one row yield a result with exactly
the `k` columns `motion_pca_1 .. motion_pca_k` and as many rows as the
input. -/
theorem load_motion_spec (numeric : NumericFn) (df : DataFrame) (motion : String)
    (hpresent : ∀ p ∈ _add_suffix
      ["trans_x", "trans_y", "trans_z", "rot_x", "rot_y", "rot_z"] motion,
      p ∈ df.columns) :
    (∀ n_motion : Int, n_motion ≤ 0 →
      _load_motion numeric df motion n_motion =
        .ok (selectCols df (_add_suffix
          ["trans_x", "trans_y", "trans_z", "rot_x", "rot_y", "rot_z"] motion))) ∧
    (∀ k : Nat, 0 < k →
      (∀ rows kk, (numeric rows kk).length = rows.length ∧
        ∀ r ∈ numeric rows kk, r.length = kk) →
      (∀ row ∈ df.rows, row.length = df.columns.length) →
      (∀ row ∈ df.rows, ∀ cell ∈ row, cell.isSome = true) →
      0 < df.rows.length →
      ∃ res, _load_motion numeric df motion (k : Int) = .ok res ∧
        res.columns = (List.range k).map (fun i => "motion_pca_" ++ Nat.repr (i + 1)) ∧
        res.rows.length = df.rows.length) := by
  have hck : _check_params df.columns (_add_suffix
      ["trans_x", "trans_y", "trans_z", "rot_x", "rot_y", "rot_z"] motion) = .ok () :=
    (checkParams_spec df.columns _).1.2 hpresent
  constructor
  · intro n hn
    simp only [_load_motion, hck, Bind.bind, Except.bind]
    rw [if_neg (by omega)]
    rfl
  · intro k hk hshape hrect hnomiss hR
    have hall : ∀ r ∈ (selectCols df (_add_suffix
        ["trans_x", "trans_y", "trans_z", "rot_x", "rot_y", "rot_z"] motion)).rows,
        r.all Option.isSome = true := by
      intro r hr
      simp only [selectCols, List.mem_map] at hr
      obtain ⟨row, hrow, rfl⟩ := hr
      rw [List.all_eq_true]
      intro cell hcell
      rw [List.mem_map] at hcell
      obtain ⟨p, hp, rfl⟩ := hcell
      exact getCell_isSome df.columns row p (hpresent p hp) (hrect row hrow)
        (fun x hx => hnomiss row hrow x hx)
    have hrows : (selectCols df (_add_suffix
        ["trans_x", "trans_y", "trans_z", "rot_x", "rot_y", "rot_z"] motion)).rows.length =
        df.rows.length := by
      simp [selectCols]
    obtain ⟨hcols, hlen⟩ := pca_motion_shape numeric (selectCols df (_add_suffix
      ["trans_x", "trans_y", "trans_z", "rot_x", "rot_y", "rot_z"] motion)) k
      hshape hall (by omega)
    refine ⟨_pca_motion numeric (selectCols df (_add_suffix
      ["trans_x", "trans_y", "trans_z", "rot_x", "rot_y", "rot_z"] motion)) k,
      ?_, ?_, ?_⟩
    · simp only [_load_motion, hck, Bind.bind, Except.bind]
      rw [if_pos (by exact_mod_cast hk)]
      simp only [Int.toNat_natCast]
      rfl
    · exact hcols
    · exact hlen.trans hrows

theorem load_motion_spec_witness :
    _load_motion numeric0 df1 "basic" (-1) =
      .ok (selectCols df1 (_add_suffix
        ["trans_x", "trans_y", "trans_z", "rot_x", "rot_y", "rot_z"] "basic")) ∧
    ∃ res, _load_motion numeric0 df1 "basic" ((2 : Nat) : Int) = .ok res ∧
      res.columns = (List.range 2).map (fun i => "motion_pca_" ++ Nat.repr (i + 1)) ∧
      res.rows.length = df1.rows.length := by
  have h := load_motion_spec numeric0 df1 "basic" (by decide)
  refine ⟨h.1 (-1) (by decide), h.2 2 (by decide) ?_ (by decide) (by decide) (by decide)⟩
  intro rows kk
  constructor
  · simp [numeric0]
  · intro r hr
    simp only [numeric0, List.mem_map] at hr
    obtain ⟨a, _, rfl⟩ := hr
    simp
